import Mathlib

/-!
# cmRegularExpression

A verification development for `Source/cmRegularExpression.h`: the pattern object of CMake's
regular-expression class, with its inline members (constructors, `is_valid`, `set_invalid`,
`start`, `end`, `match`) embedded from the header, and the compiler and matcher, which the header
only declares, modelled from the specification.
-/

namespace cmRegularExpression

/-! ## Compiled program (data model) -/

/-- Modelled from the spec: one entry of the inline class definition of `ANYOF`/`ANYBUT`
(section 3; the byte encoding of the operand is in the absent `cmRegularExpression.cxx`): a single
character, or a range written with a dash. -/
inductive ClassItem where
  | single (c : Char)
  | range (lo hi : Char)
  deriving DecidableEq, Repr

/-- Modelled from the spec: the instruction set of the compiled program (the header only has the
field `char* program`; the byte encoding is in the absent `cmRegularExpression.cxx`).  Following the
specification's data model and its design note on a tagged-variant instruction sequence, an
instruction is a tagged opcode with its operand.  The wrapped sub-pattern of `STAR`/`PLUS` and the
alternatives of `BRANCH` are nested instruction sequences, so the relative "next" offsets, the
`BACK` jump that closes a loop and the `END` marker of the byte stream are given by the nesting and
by the end of the sequence. -/
inductive Instr where
  /-- Alternative sequence start: `alt` is tried first, `other` is the following alternative. -/
  | BRANCH (alt other : List Instr)
  /-- Zero-width anchor: start of line. -/
  | BOL
  /-- Zero-width anchor: end of line. -/
  | EOL
  /-- Matches any single character. -/
  | ANY
  /-- Matches any character of the inline class definition. -/
  | ANYOF (cls : List ClassItem)
  /-- Matches any character not in the inline class definition. -/
  | ANYBUT (cls : List ClassItem)
  /-- Matches the literal run of characters stored as the operand. -/
  | EXACTLY (lit : List Char)
  /-- Zero-width no-op, used for empty alternatives. -/
  | NOTHING
  /-- Greedy zero-or-more repetition of the wrapped sub-pattern. -/
  | STAR (body : List Instr)
  /-- Greedy one-or-more repetition of the wrapped sub-pattern. -/
  | PLUS (body : List Instr)
  /-- Begin of captured subexpression `n`. -/
  | OPEN (n : Nat)
  /-- End of captured subexpression `n`. -/
  | CLOSE (n : Nat)

/-- The compiled program: the ordered instruction sequence. -/
abbrev Program := List Instr

/-! ## The pattern object (from the header) -/

/-- `const int NSUBEXP = 10;` -/
abbrev NSUBEXP : Nat := 10

/-- The null pointer.  A `const char*` is modelled by its address, a natural number, and `NULL`
is the address `0`. -/
abbrev NULL : Nat := 0

/-- The characters in memory, by address. -/
abbrev Memory := Nat → Char

/-- The private data of `class cmRegularExpression`, field by field.  `startp` and `endp` are the
two arrays of `NSUBEXP` pointers (addresses); `program` is `none` for `NULL`; the search hints `regstart`,
`reganch`, `regmust` keep the header's names, with the specification's reading of them (required
first character or none, anchored or not, required literal or none). -/
structure State where
  startp : Fin NSUBEXP → Nat
  endp : Fin NSUBEXP → Nat
  regstart : Option Char
  reganch : Bool
  regmust : Option (List Char)
  regmlen : Int
  program : Option Program
  progsize : Int
  searchstring : Nat

/-- Outcome of an expression that subscripts one of the fixed-size arrays: its value, or the fact
that the subscript lay outside the array.  C++ performs no check and leaves such a read undefined;
`outOfBounds` records the subscript that was used. -/
inductive Read (α : Type) where
  | value (v : α)
  | outOfBounds (index : Int)
  deriving DecidableEq, Repr

/-- The expression `a[n]` for `a` one of `startp`, `endp` and `n` an `int`. -/
def subscript (a : Fin NSUBEXP → Nat) (n : Int) : Read Nat :=
  if h : 0 ≤ n ∧ n < (NSUBEXP : Int) then
    Read.value (a ⟨n.toNat, by have h1 := h.1; have h2 := h.2; simp only [NSUBEXP] at h2 ⊢; omega⟩)
  else
    Read.outOfBounds n

/-- Conversion of a pointer difference (`ptrdiff_t`) to `std::string::size_type`, an unsigned type
of `w` bits: reduction modulo `2 ^ w`. -/
def toSizeType (w : Nat) (d : Int) : Nat :=
  (d % (2 : Int) ^ w).toNat

/-- The pointer difference `p - q`. -/
def ptrDiff (p q : Nat) : Int :=
  (p : Int) - (q : Int)

/-- The constructor `std::string(const char* s, size_type n)`: the `n` characters at `s`. -/
def stdString (mem : Memory) (s : Nat) (n : Nat) : List Char :=
  (List.range n).map (fun i => mem (s + i))

/-- `cmRegularExpression::cmRegularExpression ()`: `this->program = NULL;`.  The other members are
not initialised: they keep whatever the storage `raw` of the new object held. -/
def ctor (raw : State) : State :=
  { raw with program := none }

/-- `cmRegularExpression::is_valid`: `return (this->program != NULL);`. -/
def is_valid (self : State) : Bool :=
  self.program.isSome

/-- `cmRegularExpression::set_invalid`: `delete [] this->program; this->program = NULL;`. -/
def set_invalid (self : State) : State :=
  { self with program := none }

/-- `cmRegularExpression::start ()`: `return(this->startp[0] - searchstring);`. -/
def start (w : Nat) (self : State) : Nat :=
  toSizeType w (ptrDiff (self.startp ⟨0, by decide⟩) self.searchstring)

/-- `cmRegularExpression::end ()`: `return(this->endp[0] - searchstring);`. -/
def end_ (w : Nat) (self : State) : Nat :=
  toSizeType w (ptrDiff (self.endp ⟨0, by decide⟩) self.searchstring)

/-- `cmRegularExpression::start(int n)`: `return this->startp[n] - searchstring;`. -/
def start_n (w : Nat) (self : State) (n : Int) : Read Nat :=
  match subscript self.startp n with
  | Read.value p => Read.value (toSizeType w (ptrDiff p self.searchstring))
  | Read.outOfBounds i => Read.outOfBounds i

/-- `cmRegularExpression::end(int n)`: `return this->endp[n] - searchstring;`. -/
def end_n (w : Nat) (self : State) (n : Int) : Read Nat :=
  match subscript self.endp n with
  | Read.value p => Read.value (toSizeType w (ptrDiff p self.searchstring))
  | Read.outOfBounds i => Read.outOfBounds i

/-- `cmRegularExpression::match(int n)`:
`return std::string(this->startp[n], this->endp[n] - this->startp[n]);`. -/
def match_n (w : Nat) (self : State) (mem : Memory) (n : Int) : Read (List Char) :=
  match subscript self.startp n, subscript self.endp n with
  | Read.value s, Read.value e => Read.value (stdString mem s (toSizeType w (ptrDiff e s)))
  | Read.outOfBounds i, _ => Read.outOfBounds i
  | Read.value _, Read.outOfBounds i => Read.outOfBounds i

/-! ## The compiler (modelled from the specification) -/

/-- Modelled from the spec: the kinds of `PatternError` of section 4.1 (the compiler is in the
absent `cmRegularExpression.cxx`). -/
inductive PatternError where
  | UnmatchedParenthesis
  | TooManyCaptureGroups
  | InvalidBracketExpression
  | DanglingQuantifier
  | ProgramTooLarge
  deriving DecidableEq, Repr

/-- Modelled from the spec: the items of a bracket expression up to its closing `]`, with the rest
of the pattern (section 4.1 step 3; the parser is in the absent `cmRegularExpression.cxx`).  `first`
says that no item has been read yet: there a `]` is a literal, the convention the specification's
design notes name.  `c-d` is a range; a `-` right before the closing `]` is a literal.  `none`: the
pattern ended before a closing `]`. -/
def regclassItems : Bool → List Char → Option (List ClassItem × List Char)
  | _, [] => none
  | first, [c] => if c = ']' ∧ first = false then some ([], []) else none
  | first, c :: d :: rest =>
    if c = ']' ∧ first = false then
      some ([], d :: rest)
    else if d = '-' then
      match rest with
      | [] => none
      | e :: rest2 =>
        if e = ']' then
          some ([ClassItem.single c, ClassItem.single '-'], rest2)
        else
          match regclassItems false rest2 with
          | some (items, r) => some (ClassItem.range c e :: items, r)
          | none => none
    else
      match regclassItems false (d :: rest) with
      | some (items, r) => some (ClassItem.single c :: items, r)
      | none => none

/-- Modelled from the spec: a bracket expression after its `[`: `[...]` compiles to `ANYOF` and
`[^...]`, the leading `^` resolved, to `ANYBUT` (section 3 and section 4.1 step 3). -/
def regclass : List Char → Option (Instr × List Char)
  | '^' :: s =>
    match regclassItems true s with
    | some (items, r) => some (Instr.ANYBUT items, r)
    | none => none
  | s =>
    match regclassItems true s with
    | some (items, r) => some (Instr.ANYOF items, r)
    | none => none

/-- Modelled from the spec: an atom other than a parenthesized group, whose first character is
`c` and which is followed by `cs` (section 4.1 step 3).  `atStart` says that `c` is the first
character of the pattern.  Anchors are taken as the design notes say: `^` is an anchor only as the
first character of the pattern and `$` only as the last one, and is a literal elsewhere.  A `\`
makes the next character a literal. -/
def regatom (atStart : Bool) (c : Char) (cs : List Char) :
    Except PatternError (Program × List Char) :=
  if c = '^' then
    Except.ok (if atStart then [Instr.BOL] else [Instr.EXACTLY [c]], cs)
  else if c = '$' then
    Except.ok (if cs = [] then [Instr.EOL] else [Instr.EXACTLY [c]], cs)
  else if c = '.' then
    Except.ok ([Instr.ANY], cs)
  else if c = '[' then
    match regclass cs with
    | some (i, r) => Except.ok ([i], r)
    | none => Except.error PatternError.InvalidBracketExpression
  else if c = '\\' then
    match cs with
    | d :: r => Except.ok ([Instr.EXACTLY [d]], r)
    | [] => Except.ok ([Instr.EXACTLY [c]], [])
  else
    Except.ok ([Instr.EXACTLY [c]], cs)

/-- Modelled from the spec: a piece is an atom optionally followed by one quantifier (section 4.1
steps 2 and 4).  `*` and `+` wrap the compiled atom in `STAR` and `PLUS`; `?` is the optional
single pass, an alternative between the atom and `NOTHING`. -/
def regpiece (atom : Program) : List Char → Program × List Char
  | '*' :: r => ([Instr.STAR atom], r)
  | '+' :: r => ([Instr.PLUS atom], r)
  | '?' :: r => ([Instr.BRANCH atom [Instr.NOTHING]], r)
  | r => (atom, r)

/-- Modelled from the spec: a piece put in front of the rest of its sequence.  An unquantified
literal joins the literal that follows it, so that `EXACTLY` holds a literal run (section 3). -/
def joinPiece : Program → Program → Program
  | [Instr.EXACTLY a], Instr.EXACTLY b :: r => Instr.EXACTLY (a ++ b) :: r
  | piece, tail => piece ++ tail

/-- Modelled from the spec: what the recursive-descent parser of section 4.1 (absent
`cmRegularExpression.cxx`) returns for a sequence: the compiled sequence, the next unused capture
index and the rest of the pattern. -/
structure Parsed where
  prog : Program
  npar : Nat
  rest : List Char

/-- Modelled from the spec: the recursive-descent pass over a sequence of pieces (section 4.1; the
parser is in the absent `cmRegularExpression.cxx`).  `inGroup` says that the sequence is the inside
of a parenthesized group, which its `)` ends; `npar` is the next unused capture index.  A group
`(...)` takes the next unused index `n`, is compiled recursively and becomes
`OPEN n ... CLOSE n`.  The first argument bounds the recursion: each call is on a shorter rest of
the pattern, and `none` (the bound was reached) does not occur from `length + 1` on
(`regseq_isSome`). -/
def regseq : Nat → Bool → Bool → Nat → List Char → Option (Except PatternError Parsed)
  | 0, _, _, _, _ => none
  | _ + 1, inGroup, _, npar, [] =>
    some (if inGroup then Except.error PatternError.UnmatchedParenthesis
      else Except.ok ⟨[], npar, []⟩)
  | fuel + 1, inGroup, atStart, npar, c :: cs =>
    if c = ')' then
      some (if inGroup then Except.ok ⟨[], npar, cs⟩
        else Except.error PatternError.UnmatchedParenthesis)
    else if c = '*' ∨ c = '+' ∨ c = '?' then
      some (Except.error PatternError.DanglingQuantifier)
    else if c = '(' then
      if NSUBEXP ≤ npar then
        some (Except.error PatternError.TooManyCaptureGroups)
      else
        match regseq fuel true false (npar + 1) cs with
        | none => none
        | some (Except.error e) => some (Except.error e)
        | some (Except.ok inner) =>
          match regseq fuel inGroup false inner.npar
              (regpiece (Instr.OPEN npar :: inner.prog ++ [Instr.CLOSE npar]) inner.rest).2 with
          | none => none
          | some (Except.error e) => some (Except.error e)
          | some (Except.ok tail) =>
            some (Except.ok ⟨joinPiece
              (regpiece (Instr.OPEN npar :: inner.prog ++ [Instr.CLOSE npar]) inner.rest).1
              tail.prog, tail.npar, tail.rest⟩)
    else
      match regatom atStart c cs with
      | Except.error e => some (Except.error e)
      | Except.ok (atom, r) =>
        match regseq fuel inGroup false npar (regpiece atom r).2 with
        | none => none
        | some (Except.error e) => some (Except.error e)
        | some (Except.ok tail) =>
          some (Except.ok ⟨joinPiece (regpiece atom r).1 tail.prog, tail.npar, tail.rest⟩)

mutual
/-- Modelled from the spec: the size of one instruction, its opcode and its operand (section 3,
"Program size is capped"; the byte encoding is in the absent `cmRegularExpression.cxx`). -/
def instrSize : Instr → Nat
  | Instr.BRANCH alt other => 1 + progSize alt + progSize other
  | Instr.ANYOF cls => 1 + cls.length
  | Instr.ANYBUT cls => 1 + cls.length
  | Instr.EXACTLY lit => 1 + lit.length
  | Instr.STAR body => 1 + progSize body
  | Instr.PLUS body => 1 + progSize body
  | _ => 1
/-- Modelled from the spec: the size of an instruction sequence, the sum of its instructions. -/
def progSize : List Instr → Nat
  | [] => 0
  | i :: rest => instrSize i + progSize rest
end

/-- Modelled from the spec: the compiler contract of section 4.1, `compile(pattern)` gives the
compiled program or fails with a `PatternError` (the compiler is in the absent
`cmRegularExpression.cxx`).  `limit` is the internal buffer limit on the program size, whose value
the specification leaves open.  The empty pattern is not an error. -/
def compileProgram (limit : Nat) (pattern : List Char) : Except PatternError Program :=
  match regseq (pattern.length + 1) false true 1 pattern with
  | some (Except.ok parsed) =>
    if progSize parsed.prog ≤ limit then Except.ok parsed.prog
    else Except.error PatternError.ProgramTooLarge
  | some (Except.error e) => Except.error e
  | none => Except.error PatternError.ProgramTooLarge

/-- Modelled from the spec: the search hint `regstart`, the required first character: recorded
when the first instruction is a literal (section 4.1 step 5). -/
def firstLiteral : Program → Option Char
  | Instr.EXACTLY (c :: _) :: _ => some c
  | _ => none

/-- Modelled from the spec: the search hint `reganch`: the program is anchored at the start
(section 4.1 step 5). -/
def anchored : Program → Bool
  | Instr.BOL :: _ => true
  | _ => false

/-- Modelled from the spec: the longest literal run of the sequence that is not inside a
repetition or alternative (section 4.1 step 5); the empty run when there is none. -/
def longestLiteral : Program → List Char
  | [] => []
  | Instr.EXACTLY lit :: rest =>
    if (longestLiteral rest).length ≤ lit.length then lit else longestLiteral rest
  | _ :: rest => longestLiteral rest

/-- Modelled from the spec: the search hint `regmust`: the longest literal run, or none. -/
def mustLiteral (prog : Program) : Option (List Char) :=
  if longestLiteral prog = [] then none else some (longestLiteral prog)

/-- Modelled from the spec: `compile(pattern)` of the pattern object (section 4.3; the header
declares `void compile (char const*)`, the body is in the absent `cmRegularExpression.cxx`).  It
replaces any existing program and records the search hints; on failure the object becomes invalid
(no program).  The offset table is not touched (section 3: it is mutated only by a successful
`find`). -/
def compile (limit : Nat) (self : State) (pattern : List Char) : State :=
  match compileProgram limit pattern with
  | Except.ok prog =>
    { self with
      program := some prog
      progsize := progSize prog
      regstart := firstLiteral prog
      reganch := anchored prog
      regmust := mustLiteral prog
      regmlen := (longestLiteral prog).length }
  | Except.error _ => { self with program := none }

/-- `cmRegularExpression::cmRegularExpression (const char* s)`:
`this->program = NULL; compile(s);`, on the storage `raw` of the new object. -/
def ctor_pattern (limit : Nat) (raw : State) (s : List Char) : State :=
  compile limit { raw with program := none } s

/-! ## The matcher (modelled from the specification) -/

/-- Modelled from the spec: the scratch-pad subexpression offset table of a search (section 3 and
the design notes: two parallel arrays of size 10 of "optional index" into the searched text; the
matcher is in the absent `cmRegularExpression.cxx`). -/
structure Offsets where
  startp : Fin NSUBEXP → Option Nat
  endp : Fin NSUBEXP → Option Nat

/-- Modelled from the spec: the scratch-pad table with every slot unset (section 3, "pointer into
the searched string, or unset"; the matcher is in the absent `cmRegularExpression.cxx`). -/
def Offsets.unset : Offsets :=
  ⟨fun _ => none, fun _ => none⟩

/-- Modelled from the spec: what `OPEN n` does in the absent matcher (section 4.2 step 3): record
the cursor position `pos` in the start slot `n`. -/
def Offsets.setStart (t : Offsets) (n pos : Nat) : Offsets :=
  { t with startp := fun j => if j.val = n then some pos else t.startp j }

/-- Modelled from the spec: what `CLOSE n` does in the absent matcher (section 4.2 step 3): record
the cursor position `pos` in the end slot `n`. -/
def Offsets.setEnd (t : Offsets) (n pos : Nat) : Offsets :=
  { t with endp := fun j => if j.val = n then some pos else t.endp j }

/-- Modelled from the spec: whether the character `c` is in the inline class definition of an
`ANYOF`/`ANYBUT` (section 3, ranges included; the matcher is in the absent
`cmRegularExpression.cxx`). -/
def classHas (cls : List ClassItem) (c : Char) : Bool :=
  cls.any (fun item =>
    match item with
    | ClassItem.single x => decide (x = c)
    | ClassItem.range lo hi => decide (lo ≤ c) && decide (c ≤ hi))

/-- Modelled from the spec: what remains to be executed after an instruction of the absent
matcher (section 4.2 step 2): it is given the cursor position, the text from the cursor on and the
scratch-pad table, and gives the table of the successful trace, or `none` when every alternative
failed. -/
abbrev Trace := Nat → List Char → Offsets → Option Offsets

/-- Modelled from the spec: the greedy repetition of section 4.2 step 4: match the wrapped
sub-pattern `step` as many times as possible, and when what follows (`k`) fails give back one
repetition at a time.  The first argument bounds the number of repetitions; a repetition that
consumed no text is not repeated, so the length of the text from the cursor on is a bound that is
never reached by a repetition that could go on (`repeatLoop_bound`, `star_bound`). -/
def repeatLoop (step : Trace → Trace) (k : Trace) : Nat → Trace
  | 0 => k
  | n + 1 => fun pos s t =>
    match step (fun pos1 s1 t1 =>
        if s1.length < s.length then repeatLoop step k n pos1 s1 t1 else none) pos s t with
    | some r => some r
    | none => k pos s t

mutual
/-- Modelled from the spec: the execution of one instruction, with `k` what follows it (section
4.2 step 3; the matcher is in the absent `cmRegularExpression.cxx`).  Literal and class opcodes
consume and advance the cursor on success and fail on mismatch; `OPEN n`/`CLOSE n` record the
cursor position in slot `n` at the moment control passes through them; `BRANCH` tries its
alternatives in order; `STAR`/`PLUS` are matched greedily. -/
def regmatchInstr : Instr → Trace → Trace
  | Instr.BRANCH alt other, k => fun pos s t =>
    match regmatch alt k pos s t with
    | some r => some r
    | none => regmatch other k pos s t
  | Instr.BOL, k => fun pos s t => if pos = 0 then k pos s t else none
  | Instr.EOL, k => fun pos s t => if s = [] then k pos s t else none
  | Instr.ANY, k => fun pos s t =>
    match s with
    | [] => none
    | _ :: r => k (pos + 1) r t
  | Instr.ANYOF cls, k => fun pos s t =>
    match s with
    | [] => none
    | c :: r => if classHas cls c then k (pos + 1) r t else none
  | Instr.ANYBUT cls, k => fun pos s t =>
    match s with
    | [] => none
    | c :: r => if classHas cls c then none else k (pos + 1) r t
  | Instr.EXACTLY lit, k => fun pos s t =>
    if lit.isPrefixOf s then k (pos + lit.length) (s.drop lit.length) t else none
  | Instr.NOTHING, k => k
  | Instr.STAR body, k => fun pos s t => repeatLoop (regmatch body) k s.length pos s t
  | Instr.PLUS body, k =>
    regmatch body (fun pos s t => repeatLoop (regmatch body) k s.length pos s t)
  | Instr.OPEN n, k => fun pos s t => k pos s (t.setStart n pos)
  | Instr.CLOSE n, k => fun pos s t => k pos s (t.setEnd n pos)
/-- Modelled from the spec: the execution of an instruction sequence, each instruction followed
by the rest of the sequence and then by `k`. -/
def regmatch : List Instr → Trace → Trace
  | [], k => k
  | i :: rest, k => regmatchInstr i (regmatch rest k)
end

/-- Modelled from the spec: the attempt of a full match at the candidate start position `i`
(section 4.2 step 2): the program is executed against the text from `i` on with a fresh
scratch-pad, and when the end of the program is reached slot 0, the whole match, runs from `i` to
the cursor. -/
def regtry (prog : Program) (text : List Char) (i : Nat) : Option Offsets :=
  regmatch prog (fun pos _ t => some ((t.setStart 0 i).setEnd 0 pos)) i (text.drop i)
    Offsets.unset

/-- Modelled from the spec: the substring pre-check of the absent matcher (section 4.2 step 1):
whether the literal `lit` occurs somewhere in `s`. -/
def occursIn (lit : List Char) : List Char → Bool
  | [] => lit.isEmpty
  | c :: r => lit.isPrefixOf (c :: r) || occursIn lit r

/-- Modelled from the spec: the fast-reject test of a candidate start position `i` (section 4.2
step 1): with `reganch` only position 0 is tried; with `regstart` only the occurrences of that
character; with `regmust` only positions from which the remaining text contains the literal. -/
def candidate (self : State) (text : List Char) (i : Nat) : Bool :=
  (if self.reganch then decide (i = 0) else true) &&
  (match self.regstart with
    | some c => decide ((text.drop i).head? = some c)
    | none => true) &&
  (match self.regmust with
    | some lit => occursIn lit (text.drop i)
    | none => true)

/-- Modelled from the spec: the search loop of section 4.2: the candidate start position `i`
advances through the text (`remaining` is the text from `i` on, the position after the last
character included), and the first candidate that yields a full successful trace wins. -/
def searchFrom (self : State) (prog : Program) (text : List Char) :
    Nat → List Char → Option Offsets
  | i, [] => if candidate self text i then regtry prog text i else none
  | i, _ :: r =>
    match (if candidate self text i then regtry prog text i else none) with
    | some t => some t
    | none => searchFrom self prog text (i + 1) r

/-- Modelled from the spec: how the absent `find` stores an offset of the scratch-pad in the
pointer arrays `startp`/`endp` of the header: the address of that index of the text at `p`, and
`NULL` when unset. -/
def toPtr (p : Nat) : Option Nat → Nat
  | some i => p + i
  | none => NULL

/-- Modelled from the spec: `find(text)` of the pattern object (section 4.3; the header declares
`bool find (char const*)`, the body is in the absent `cmRegularExpression.cxx`).  `p` is the
argument and `text` the characters of the string at `p`.  The matcher runs over the whole text;
on success the offsets are stored as pointers into the text and the reference to the text is
retained; the result says whether a match was found.  Without a program nothing is found. -/
def find (self : State) (p : Nat) (text : List Char) : Bool × State :=
  match self.program with
  | none => (false, self)
  | some prog =>
    match searchFrom self prog text 0 text with
    | some t =>
      (true, { self with
        startp := fun j => toPtr p (t.startp j)
        endp := fun j => toPtr p (t.endp j)
        searchstring := p })
    | none => (false, self)

/-- Modelled from the spec: the pattern matches at the start position `i` of the text (section
4.2 step 5, over the absent matcher): `i` is a position of the text, from 0 to its length, and the
attempt at `i` yields a full successful trace. -/
def matchesAt (prog : Program) (text : List Char) (i : Nat) : Prop :=
  i ≤ text.length ∧ (regtry prog text i).isSome = true

/-- An object whose members are all zero, with no program. -/
def zeroState : State :=
  ⟨fun _ => 0, fun _ => 0, none, false, none, 0, none, 0, 0⟩

/-- A memory that holds `hello` at address 100 (and `x` elsewhere). -/
def helloMemory : Memory :=
  fun a => if a = 100 then 'h' else if a = 101 then 'e' else if a = 102 then 'l'
    else if a = 103 then 'l' else if a = 104 then 'o' else 'x'

/-- An object that has searched the text at address 100, with submatch 1 at `[102, 104)`. -/
def helloState : State :=
  { zeroState with
    startp := fun j => if j.val = 1 then 102 else 100
    endp := fun j => if j.val = 1 then 104 else 105
    searchstring := 100 }

/-- The program of the pattern `[1-9ab]`. -/
def classProgram : Program :=
  [Instr.ANYOF [ClassItem.range '1' '9', ClassItem.single 'a', ClassItem.single 'b']]

/-- The program of the pattern `b+a`. -/
def plusProgram : Program :=
  [Instr.PLUS [Instr.EXACTLY ['b']], Instr.EXACTLY ['a']]

/-- The execution `F` passes control on: every successful trace of `F k` is a successful trace
of `k`, entered at a cursor that is not before the one `F` was entered at (`s1` is what is left
of `s` after some characters `pre`). -/
def Reaches (F : Trace → Trace) : Prop :=
  ∀ k pos s t r, F k pos s t = some r →
    ∃ pos1 s1 t1, (∃ pre, s = pre ++ s1) ∧ k pos1 s1 t1 = some r

/-! ## Theorems about the header's members -/

theorem subscript_inBounds (a : Fin NSUBEXP → Nat) (j : Fin NSUBEXP) :
    subscript a (j.val : Int) = Read.value (a j) := by
  have hj : ((j.val : Int) < (NSUBEXP : Int)) := by exact_mod_cast j.isLt
  have h0 : (0 : Int) ≤ (j.val : Int) := Int.natCast_nonneg _
  simp only [subscript, h0, hj, and_self, dite_true]
  congr

theorem subscript_outOfBounds (a : Fin NSUBEXP → Nat) (n : Int)
    (h : ¬ (0 ≤ n ∧ n < (NSUBEXP : Int))) : subscript a n = Read.outOfBounds n := by
  simp only [subscript, h, dite_false]

theorem toSizeType_diff (w : Nat) (p i : Nat) (h : i < 2 ^ w) :
    toSizeType w (ptrDiff (p + i) p) = i := by
  have h2 : ((i : Int)) < (2 : Int) ^ w := by exact_mod_cast h
  have h3 : ptrDiff (p + i) p = (i : Int) := by
    simp only [ptrDiff]; push_cast; ring
  rw [h3, toSizeType, Int.emod_eq_of_lt (Int.natCast_nonneg _) h2]
  exact Int.toNat_natCast i

theorem stdString_sub (mem : Memory) (q a c len : Nat) (h : a + c ≤ len) :
    ((stdString mem q len).drop a).take c = stdString mem (q + a) c := by
  apply List.ext_getElem?
  intro i
  simp only [stdString, List.getElem?_take, List.getElem?_drop, List.getElem?_map]
  by_cases hi : i < c
  · have h1 : a + i < len := by omega
    simp [hi, List.getElem?_range, h1, Nat.add_assoc]
  · have h2 : (List.range c)[i]? = none := by
      apply List.getElem?_eq_none; simp; omega
    simp [hi, h2]

/-- C4: for every object state and every slot `n` of the table (`j`, an index in 0..9) whose
start and end pointers point into the last-searched text, start before end, `match(n)` is the
substring of that text from index `start(n)` up to, not including, index `end(n)`, and its length
is `end(n) - start(n)`.  The last-searched text is the `text` that the memory holds at
`searchstring`; it fits the `w`-bit `size_type`. -/
theorem match_is_substring (w : Nat) (self : State) (mem : Memory) (text : List Char)
    (j : Fin NSUBEXP)
    (htext : stdString mem self.searchstring text.length = text)
    (hfit : text.length < 2 ^ w)
    (hs : self.searchstring ≤ self.startp j)
    (hse : self.startp j ≤ self.endp j)
    (he : self.endp j ≤ self.searchstring + text.length) :
    ∃ s e : Nat,
      start_n w self (j.val : Int) = Read.value s ∧
      end_n w self (j.val : Int) = Read.value e ∧
      match_n w self mem (j.val : Int) = Read.value ((text.drop s).take (e - s)) ∧
      ((text.drop s).take (e - s)).length = e - s := by
  obtain ⟨a, ha⟩ := Nat.exists_eq_add_of_le hs
  obtain ⟨c, hc⟩ := Nat.exists_eq_add_of_le hse
  have hac : a + c ≤ text.length := by omega
  refine ⟨a, a + c, ?_, ?_, ?_, ?_⟩
  · simp only [start_n, subscript_inBounds, ha]
    rw [toSizeType_diff w _ a (by omega)]
  · simp only [end_n, subscript_inBounds, hc, ha]
    rw [Nat.add_assoc, toSizeType_diff w _ (a + c) (by omega)]
  · simp only [match_n, subscript_inBounds, hc]
    rw [toSizeType_diff w _ c (by omega), ha, Nat.add_sub_cancel_left]
    rw [← stdString_sub mem self.searchstring a c text.length hac, htext]
  · rw [List.length_take, List.length_drop]; omega

theorem match_is_substring_witness :
    ∃ s e : Nat,
      start_n 64 helloState (((1 : Fin NSUBEXP).val : Nat) : Int) = Read.value s ∧
      end_n 64 helloState (((1 : Fin NSUBEXP).val : Nat) : Int) = Read.value e ∧
      match_n 64 helloState helloMemory (((1 : Fin NSUBEXP).val : Nat) : Int) =
        Read.value (("hello".toList.drop s).take (e - s)) ∧
      (("hello".toList.drop s).take (e - s)).length = e - s :=
  match_is_substring 64 helloState helloMemory "hello".toList 1
    (by decide) (by decide) (by decide) (by decide) (by decide)

/-- C5, counterexample: for the group indices 10 and -1 the members `start(n)`, `end(n)` and
`match(n)` subscript the slot arrays outside the ten-entry table; no check is made and no error
result is defined. -/
theorem subscript_ten_outside :
    start_n 64 zeroState 10 = Read.outOfBounds 10 ∧
    end_n 64 zeroState 10 = Read.outOfBounds 10 ∧
    match_n 64 zeroState helloMemory 10 = Read.outOfBounds 10 ∧
    start_n 64 zeroState (-1) = Read.outOfBounds (-1) ∧
    end_n 64 zeroState (-1) = Read.outOfBounds (-1) ∧
    match_n 64 zeroState helloMemory (-1) = Read.outOfBounds (-1) := by
  refine ⟨?_, ?_, ?_, ?_, ?_, ?_⟩ <;> rfl

theorem subscript_of_inBounds (a : Fin NSUBEXP → Nat) (n : Int)
    (h : 0 ≤ n ∧ n < (NSUBEXP : Int)) :
    ∃ j : Fin NSUBEXP, (j.val : Int) = n ∧ subscript a n = Read.value (a j) := by
  have h2 := h.2
  simp only [NSUBEXP] at h2
  refine ⟨⟨n.toNat, by simp only [NSUBEXP]; omega⟩, ?_, ?_⟩
  · simp only []; omega
  · rw [subscript, dif_pos h]

/-- C5, amended: `start(n)`, `end(n)` and `match(n)` use their argument unchecked as the
subscript of the slot arrays.  For `n` in 0..9 the slot read is slot `n` of the table; for every
other `n` the subscript lies outside the table. -/
theorem subscript_unchecked (w : Nat) (self : State) (mem : Memory) (n : Int) :
    ((0 ≤ n ∧ n < (NSUBEXP : Int)) →
      ∃ j : Fin NSUBEXP, (j.val : Int) = n ∧
        start_n w self n = Read.value (toSizeType w (ptrDiff (self.startp j) self.searchstring)) ∧
        end_n w self n = Read.value (toSizeType w (ptrDiff (self.endp j) self.searchstring)) ∧
        match_n w self mem n = Read.value
          (stdString mem (self.startp j) (toSizeType w (ptrDiff (self.endp j) (self.startp j))))) ∧
    (¬ (0 ≤ n ∧ n < (NSUBEXP : Int)) →
      start_n w self n = Read.outOfBounds n ∧ end_n w self n = Read.outOfBounds n ∧
      match_n w self mem n = Read.outOfBounds n) := by
  constructor
  · intro h
    obtain ⟨j, hj, _⟩ := subscript_of_inBounds self.startp n h
    refine ⟨j, hj, ?_, ?_, ?_⟩ <;>
      simp only [← hj, start_n, end_n, match_n, subscript_inBounds]
  · intro h
    simp only [start_n, end_n, match_n, subscript_outOfBounds _ n h, and_self]

theorem subscript_unchecked_witness :
    start_n 64 helloState 1 = Read.value 2 ∧ end_n 64 helloState 1 = Read.value 4 ∧
    match_n 64 helloState helloMemory 1 = Read.value ['l', 'l'] := by
  obtain ⟨j, hj, h1, h2, h3⟩ :=
    (subscript_unchecked 64 helloState helloMemory 1).1 (by decide)
  have hj1 : j = 1 := by
    apply Fin.ext
    have : (j.val : Int) = ((1 : Fin NSUBEXP).val : Int) := hj
    exact_mod_cast this
  subst hj1
  refine ⟨h1.trans ?_, h2.trans ?_, h3.trans ?_⟩ <;> decide

/-- C6: `is_valid()` is true exactly when a compiled program is present (`program` is not
`NULL`), and it depends on no other field: whatever the other members of an object `other` are,
with the program of `self` it is as valid as `self`. -/
theorem is_valid_iff_program (self other : State) :
    (is_valid self = true ↔ self.program ≠ none) ∧
    is_valid { other with program := self.program } = is_valid self := by
  constructor
  · simp [is_valid, Option.isSome_iff_ne_none]
  · rfl

/-- C7: after `set_invalid()` the object, valid or not before, holds no compiled program and
`is_valid()` is false; a second `set_invalid()` gives the same state as the first. -/
theorem set_invalid_discards (self : State) :
    (set_invalid self).program = none ∧
    is_valid (set_invalid self) = false ∧
    set_invalid (set_invalid self) = set_invalid self :=
  ⟨rfl, rfl, rfl⟩

/-- C8: `set_invalid()` leaves the ten start slots, the ten end slots and the reference to the
last-searched text exactly as they were, so every read of the offsets (`start`, `end`, `match`,
with or without an index) gives after it what it gave before.  The read-only members are `const`:
they are functions of the object and return no new state. -/
theorem set_invalid_keeps_offsets (w : Nat) (self : State) (mem : Memory) :
    (∀ j, (set_invalid self).startp j = self.startp j) ∧
    (∀ j, (set_invalid self).endp j = self.endp j) ∧
    (set_invalid self).searchstring = self.searchstring ∧
    start w (set_invalid self) = start w self ∧
    end_ w (set_invalid self) = end_ w self ∧
    (∀ n, start_n w (set_invalid self) n = start_n w self n) ∧
    (∀ n, end_n w (set_invalid self) n = end_n w self n) ∧
    (∀ n, match_n w (set_invalid self) mem n = match_n w self mem n) :=
  ⟨fun _ => rfl, fun _ => rfl, rfl, rfl, rfl, fun _ => rfl, fun _ => rfl, fun _ => rfl⟩

/-- C9: the argument-less `start()` and `end()` are the offsets of submatch 0: `start(0)` reads
in bounds and gives `start()`, `end(0)` gives `end()`, each the position of slot 0 relative to
`searchstring`, the beginning of the last-searched text. -/
theorem start_end_whole_match (w : Nat) (self : State) :
    start_n w self 0 = Read.value (start w self) ∧
    end_n w self 0 = Read.value (end_ w self) ∧
    start w self = toSizeType w (ptrDiff (self.startp 0) self.searchstring) ∧
    end_ w self = toSizeType w (ptrDiff (self.endp 0) self.searchstring) :=
  ⟨rfl, rfl, rfl, rfl⟩

/-- C10: a default-constructed object, whatever its storage held, has no compiled program and
`is_valid()` is false; an object constructed from a pattern string is in the state of a
default-constructed object on which `compile` was then called with that string. -/
theorem ctor_no_program (limit : Nat) (raw : State) (s : List Char) :
    (ctor raw).program = none ∧
    is_valid (ctor raw) = false ∧
    ctor_pattern limit raw s = compile limit (ctor raw) s :=
  ⟨rfl, rfl, rfl⟩

/-- C1: for every object state, compiling the pattern `(` fails with `UnmatchedParenthesis` and
leaves the object invalid with no program; and so does every pattern on which the compiler
fails: afterwards `is_valid()` is false and the program held before is not present. -/
theorem compile_failure_invalid (limit : Nat) (self : State) :
    compileProgram limit "(".toList = Except.error PatternError.UnmatchedParenthesis ∧
    (compile limit self "(".toList).program = none ∧
    is_valid (compile limit self "(".toList) = false ∧
    ∀ (pattern : List Char) (e : PatternError),
      compileProgram limit pattern = Except.error e →
      (compile limit self pattern).program = none ∧
      is_valid (compile limit self pattern) = false := by
  have hgen : ∀ (pattern : List Char) (e : PatternError),
      compileProgram limit pattern = Except.error e →
      (compile limit self pattern).program = none ∧
      is_valid (compile limit self pattern) = false := by
    intro pattern e h
    simp only [compile, h, is_valid, Option.isSome_none, and_self]
  have hparen : compileProgram limit "(".toList =
      Except.error PatternError.UnmatchedParenthesis := rfl
  exact ⟨hparen, (hgen _ _ hparen).1, (hgen _ _ hparen).2, hgen⟩

theorem compile_failure_invalid_witness :
    (compile 100 helloState "[ab".toList).program = none ∧
    is_valid (compile 100 helloState "[ab".toList) = false :=
  (compile_failure_invalid 100 helloState).2.2.2 "[ab".toList
    PatternError.InvalidBracketExpression rfl

/-! ## Theorems about the compiler and the matcher -/

theorem compileProgram_class (limit : Nat) (h : 4 ≤ limit) :
    compileProgram limit "[1-9ab]".toList = Except.ok classProgram := by
  have hp : regseq ("[1-9ab]".toList.length + 1) false true 1 "[1-9ab]".toList =
      some (Except.ok ⟨classProgram, 1, []⟩) := rfl
  have hs : progSize classProgram = 4 := rfl
  simp only [compileProgram, hp, hs, h, if_true]

/-- With `[1-9ab]` compiled (the limit admits the program), for every object and every address
`p` of the text, `find` returns true on `hello 1`, matching the `1` at offsets 6 to 7, and on
`begin`, matching the `b` at offsets 0 to 1. -/
theorem class_example (limit : Nat) (self : State) (p : Nat) (h : 4 ≤ limit) :
    is_valid (compile limit self "[1-9ab]".toList) = true ∧
    (find (compile limit self "[1-9ab]".toList) p "hello 1".toList).1 = true ∧
    (find (compile limit self "[1-9ab]".toList) p "hello 1".toList).2.startp 0 = p + 6 ∧
    (find (compile limit self "[1-9ab]".toList) p "hello 1".toList).2.endp 0 = p + 7 ∧
    (find (compile limit self "[1-9ab]".toList) p "begin".toList).1 = true ∧
    (find (compile limit self "[1-9ab]".toList) p "begin".toList).2.startp 0 = p + 0 ∧
    (find (compile limit self "[1-9ab]".toList) p "begin".toList).2.endp 0 = p + 1 := by
  simp only [compile, compileProgram_class limit h]
  refine ⟨?_, ?_, ?_, ?_, ?_, ?_, ?_⟩ <;> rfl

theorem reaches_repeatLoop (step : Trace → Trace) (hstep : Reaches step) :
    ∀ n, Reaches (fun k => repeatLoop step k n) := by
  intro n
  induction n with
  | zero =>
    intro k pos s t r h
    exact ⟨pos, s, t, ⟨[], rfl⟩, h⟩
  | succ n ih =>
    intro k pos s t r h
    simp only [repeatLoop] at h
    split at h
    · rename_i r1 heq
      obtain ⟨pos1, s1, t1, ⟨pre, hpre⟩, hk⟩ := hstep _ pos s t r1 heq
      split at hk
      · obtain ⟨pos2, s2, t2, ⟨pre2, hpre2⟩, hk2⟩ := ih k pos1 s1 t1 r1 hk
        refine ⟨pos2, s2, t2, ⟨pre ++ pre2, ?_⟩, ?_⟩
        · rw [hpre, hpre2, List.append_assoc]
        · rw [hk2]; exact h
      · exact absurd hk (by simp)
    · exact ⟨pos, s, t, ⟨[], rfl⟩, h⟩

mutual
theorem reaches_instr : ∀ i : Instr, Reaches (regmatchInstr i)
  | Instr.BRANCH alt other => by
    intro k pos s t r h
    simp only [regmatchInstr] at h
    split at h
    · rename_i r1 heq
      rw [← h]
      exact reaches_prog alt k pos s t r1 heq
    · exact reaches_prog other k pos s t r h
  | Instr.BOL => by
    intro k pos s t r h
    simp only [regmatchInstr] at h
    split at h
    · exact ⟨pos, s, t, ⟨[], rfl⟩, h⟩
    · exact absurd h (by simp)
  | Instr.EOL => by
    intro k pos s t r h
    simp only [regmatchInstr] at h
    split at h
    · exact ⟨pos, s, t, ⟨[], rfl⟩, h⟩
    · exact absurd h (by simp)
  | Instr.ANY => by
    intro k pos s t r h
    simp only [regmatchInstr] at h
    split at h
    · exact absurd h (by simp)
    · rename_i c rest
      exact ⟨pos + 1, rest, t, ⟨[c], rfl⟩, h⟩
  | Instr.ANYOF cls => by
    intro k pos s t r h
    simp only [regmatchInstr] at h
    split at h
    · exact absurd h (by simp)
    · rename_i c rest
      split at h
      · exact ⟨pos + 1, rest, t, ⟨[c], rfl⟩, h⟩
      · exact absurd h (by simp)
  | Instr.ANYBUT cls => by
    intro k pos s t r h
    simp only [regmatchInstr] at h
    split at h
    · exact absurd h (by simp)
    · rename_i c rest
      split at h
      · exact absurd h (by simp)
      · exact ⟨pos + 1, rest, t, ⟨[c], rfl⟩, h⟩
  | Instr.EXACTLY lit => by
    intro k pos s t r h
    simp only [regmatchInstr] at h
    split at h
    · exact ⟨_, _, t, ⟨s.take lit.length, (List.take_append_drop _ _).symm⟩, h⟩
    · exact absurd h (by simp)
  | Instr.NOTHING => by
    intro k pos s t r h
    exact ⟨pos, s, t, ⟨[], rfl⟩, h⟩
  | Instr.STAR body => by
    intro k pos s t r h
    simp only [regmatchInstr] at h
    exact reaches_repeatLoop _ (reaches_prog body) s.length k pos s t r h
  | Instr.PLUS body => by
    intro k pos s t r h
    simp only [regmatchInstr] at h
    obtain ⟨pos1, s1, t1, ⟨pre, hpre⟩, hk⟩ := reaches_prog body _ pos s t r h
    obtain ⟨pos2, s2, t2, ⟨pre2, hpre2⟩, hk2⟩ :=
      reaches_repeatLoop _ (reaches_prog body) s1.length k pos1 s1 t1 r hk
    exact ⟨pos2, s2, t2, ⟨pre ++ pre2, by rw [hpre, hpre2, List.append_assoc]⟩, hk2⟩
  | Instr.OPEN n => by
    intro k pos s t r h
    exact ⟨pos, s, _, ⟨[], rfl⟩, h⟩
  | Instr.CLOSE n => by
    intro k pos s t r h
    exact ⟨pos, s, _, ⟨[], rfl⟩, h⟩
theorem reaches_prog : ∀ p : List Instr, Reaches (regmatch p)
  | [] => by
    intro k pos s t r h
    exact ⟨pos, s, t, ⟨[], rfl⟩, h⟩
  | i :: rest => by
    intro k pos s t r h
    simp only [regmatch] at h
    obtain ⟨pos1, s1, t1, ⟨pre, hpre⟩, hk⟩ := reaches_instr i _ pos s t r h
    obtain ⟨pos2, s2, t2, ⟨pre2, hpre2⟩, hk2⟩ := reaches_prog rest k pos1 s1 t1 r hk
    exact ⟨pos2, s2, t2, ⟨pre ++ pre2, by rw [hpre, hpre2, List.append_assoc]⟩, hk2⟩
end

theorem occursIn_nil (s : List Char) : occursIn [] s = true := by
  cases s <;> simp [occursIn, List.isPrefixOf]

theorem occursIn_of_isPrefixOf (lit s : List Char) (h : lit.isPrefixOf s = true) :
    occursIn lit s = true := by
  cases s with
  | nil =>
    cases lit with
    | nil => rfl
    | cons a l => simp [List.isPrefixOf] at h
  | cons c r => simp only [occursIn, h, Bool.true_or]

theorem occursIn_append (lit pre s : List Char) (h : occursIn lit s = true) :
    occursIn lit (pre ++ s) = true := by
  induction pre with
  | nil => exact h
  | cons c pre ih =>
    show (lit.isPrefixOf (c :: (pre ++ s)) || occursIn lit (pre ++ s)) = true
    rw [ih, Bool.or_true]

theorem longestLiteral_occurs : ∀ (prog : Program) (k : Trace) (pos : Nat) (s : List Char)
    (t r : Offsets), regmatch prog k pos s t = some r →
    occursIn (longestLiteral prog) s = true := by
  intro prog
  induction prog with
  | nil => intro k pos s t r _; exact occursIn_nil s
  | cons i rest ih =>
    intro k pos s t r h
    simp only [regmatch] at h
    obtain ⟨pos1, s1, t1, ⟨pre, hpre⟩, hk⟩ := reaches_instr i _ pos s t r h
    have hrest : occursIn (longestLiteral rest) s = true := by
      rw [hpre]; exact occursIn_append _ _ _ (ih k pos1 s1 t1 r hk)
    cases i with
    | EXACTLY lit =>
      simp only [longestLiteral]
      split
      · simp only [regmatchInstr] at h
        split at h
        · rename_i hp; exact occursIn_of_isPrefixOf _ _ hp
        · exact absurd h (by simp)
      · exact hrest
    | _ => simpa only [longestLiteral] using hrest

theorem anchored_start (prog : Program) (k : Trace) (pos : Nat) (s : List Char)
    (t r : Offsets) (h : regmatch prog k pos s t = some r) (ha : anchored prog = true) :
    pos = 0 := by
  cases prog with
  | nil => simp [anchored] at ha
  | cons i rest =>
    cases i with
    | BOL =>
      simp only [regmatch, regmatchInstr] at h
      split at h
      · assumption
      · exact absurd h (by simp)
    | _ => simp [anchored] at ha

theorem firstLiteral_head (prog : Program) (k : Trace) (pos : Nat) (s : List Char)
    (t r : Offsets) (c : Char) (h : regmatch prog k pos s t = some r)
    (hc : firstLiteral prog = some c) : s.head? = some c := by
  cases prog with
  | nil => simp [firstLiteral] at hc
  | cons i rest =>
    cases i with
    | EXACTLY lit =>
      cases lit with
      | nil => simp [firstLiteral] at hc
      | cons a l =>
        simp only [firstLiteral, Option.some.injEq] at hc
        simp only [regmatch, regmatchInstr] at h
        split at h
        · rename_i hp
          cases s with
          | nil => simp [List.isPrefixOf] at hp
          | cons b s2 =>
            simp only [List.isPrefixOf, Bool.and_eq_true, beq_iff_eq] at hp
            simp only [List.head?_cons, Option.some.injEq]
            rw [← hp.1, hc]
        · exact absurd h (by simp)
    | _ => simp [firstLiteral] at hc

theorem candidate_of_regtry (self : State) (prog : Program) (text : List Char) (i : Nat)
    (t : Offsets) (h1 : self.reganch = anchored prog) (h2 : self.regstart = firstLiteral prog)
    (h3 : self.regmust = mustLiteral prog) (h : regtry prog text i = some t) :
    candidate self text i = true := by
  simp only [regtry] at h
  simp only [candidate, Bool.and_eq_true]
  refine ⟨⟨?_, ?_⟩, ?_⟩
  · split
    · rename_i ha
      rw [h1] at ha
      simp only [decide_eq_true_eq]
      exact anchored_start prog _ _ _ _ _ h ha
    · rfl
  · split
    · rename_i c hc
      rw [h2] at hc
      simp only [decide_eq_true_eq]
      exact firstLiteral_head prog _ _ _ _ _ c h hc
    · rfl
  · split
    · rename_i lit hl
      rw [h3] at hl
      simp only [mustLiteral] at hl
      split at hl
      · exact absurd hl (by simp)
      · simp only [Option.some.injEq] at hl
        rw [← hl]
        exact longestLiteral_occurs prog _ _ _ _ _ h
    · rfl

theorem regtry_startp (prog : Program) (text : List Char) (i : Nat) (t : Offsets)
    (h : regtry prog text i = some t) : t.startp 0 = some i := by
  simp only [regtry] at h
  obtain ⟨pos1, s1, t1, _, hk⟩ := reaches_prog prog _ _ _ _ _ h
  simp only [Option.some.injEq] at hk
  rw [← hk]
  simp [Offsets.setStart, Offsets.setEnd]

theorem searchFrom_some (self : State) (prog : Program) (text : List Char) :
    ∀ (rem : List Char) (i : Nat) (t : Offsets), searchFrom self prog text i rem = some t →
    ∃ j, i ≤ j ∧ j ≤ i + rem.length ∧ candidate self text j = true ∧
      regtry prog text j = some t ∧
      ∀ j1, i ≤ j1 → j1 < j → candidate self text j1 = true → regtry prog text j1 = none := by
  intro rem
  induction rem with
  | nil =>
    intro i t h
    simp only [searchFrom] at h
    split at h
    · rename_i hc
      exact ⟨i, le_refl _, by simp, hc, h, fun j1 h1 h2 => absurd h1 (by omega)⟩
    · exact absurd h (by simp)
  | cons c r ih =>
    intro i t h
    simp only [searchFrom] at h
    split at h
    · rename_i t1 heq
      split at heq
      · rename_i hc
        simp only [Option.some.injEq] at h
        rw [h] at heq
        exact ⟨i, le_refl _, by simp, hc, heq, fun j1 h1 h2 => absurd h1 (by omega)⟩
      · exact absurd heq (by simp)
    · rename_i heq
      obtain ⟨j, hj1, hj2, hj3, hj4, hj5⟩ := ih (i + 1) t h
      refine ⟨j, by omega, by simp only [List.length_cons]; omega, hj3, hj4, ?_⟩
      intro j1 h1 h2 hc
      by_cases hji : j1 = i
      · subst hji
        simpa only [hc, if_true] using heq
      · exact hj5 j1 (by omega) h2 hc

theorem searchFrom_none (self : State) (prog : Program) (text : List Char) :
    ∀ (rem : List Char) (i : Nat), searchFrom self prog text i rem = none →
    ∀ j, i ≤ j → j ≤ i + rem.length → candidate self text j = true →
      regtry prog text j = none := by
  intro rem
  induction rem with
  | nil =>
    intro i h j h1 h2 hc
    have hji : j = i := by simp only [List.length_nil] at h2; omega
    subst hji
    simpa only [searchFrom, hc, if_true] using h
  | cons c r ih =>
    intro i h j h1 h2 hc
    simp only [searchFrom] at h
    split at h
    · exact absurd h (by simp)
    · rename_i heq
      by_cases hji : j = i
      · subst hji
        simpa only [hc, if_true] using heq
      · exact ih (i + 1) h j (by omega) (by simp only [List.length_cons] at h2; omega) hc

theorem compile_hints (limit : Nat) (self : State) (pattern : List Char) (prog : Program)
    (h : (compile limit self pattern).program = some prog) :
    (compile limit self pattern).reganch = anchored prog ∧
    (compile limit self pattern).regstart = firstLiteral prog ∧
    (compile limit self pattern).regmust = mustLiteral prog := by
  simp only [compile] at h ⊢
  split at h
  · rename_i prog1 heq
    simp only [Option.some.injEq] at h
    subst h
    simp only [heq, and_self]
  · exact absurd h (by simp)

theorem find_start (w : Nat) (self : State) (prog : Program) (p : Nat) (text : List Char)
    (t : Offsets) (j : Nat) (hprog : self.program = some prog)
    (hs : searchFrom self prog text 0 text = some t) (hj : regtry prog text j = some t)
    (hjw : j < 2 ^ w) :
    (find self p text).1 = true ∧ start w (find self p text).2 = j := by
  have hfind : find self p text = (true, { self with
      startp := fun j => toPtr p (t.startp j)
      endp := fun j => toPtr p (t.endp j)
      searchstring := p }) := by
    simp only [find, hprog, hs]
  rw [hfind]
  refine ⟨rfl, ?_⟩
  have h0 : t.startp ⟨0, by decide⟩ = some j := regtry_startp prog text j t hj
  simp only [start, h0, toPtr]
  exact toSizeType_diff w p j hjw

/-- C2: for every validly compiled pattern (its program is `prog`) and every text (fitting the
`w`-bit `size_type`), `find` returns true exactly when the pattern matches at some start position
of the text; and when it returns true, `start(0)` is a start position at which the pattern
matches and the pattern matches at no position before it. -/
theorem find_first_occurrence (w limit : Nat) (self : State) (pattern : List Char)
    (prog : Program) (p : Nat) (text : List Char)
    (hprog : (compile limit self pattern).program = some prog)
    (hfit : text.length < 2 ^ w) :
    ((find (compile limit self pattern) p text).1 = true ↔ ∃ i, matchesAt prog text i) ∧
    ((find (compile limit self pattern) p text).1 = true →
      start_n w (find (compile limit self pattern) p text).2 0 =
        Read.value (start w (find (compile limit self pattern) p text).2) ∧
      matchesAt prog text (start w (find (compile limit self pattern) p text).2) ∧
      ∀ j, j < start w (find (compile limit self pattern) p text).2 →
        ¬ matchesAt prog text j) := by
  obtain ⟨h1, h2, h3⟩ := compile_hints limit self pattern prog hprog
  generalize compile limit self pattern = re at hprog h1 h2 h3 ⊢
  have hcand : ∀ i t, regtry prog text i = some t → candidate re text i = true :=
    fun i t h => candidate_of_regtry re prog text i t h1 h2 h3 h
  cases hs : searchFrom re prog text 0 text with
  | none =>
    have hfind : find re p text = (false, re) := by simp only [find, hprog, hs]
    rw [hfind]
    refine ⟨⟨fun h => absurd h (by simp), ?_⟩, fun h => absurd h (by simp)⟩
    rintro ⟨i, hi, hsome⟩
    obtain ⟨t, ht⟩ := Option.isSome_iff_exists.mp hsome
    have hn := searchFrom_none re prog text text 0 hs i (Nat.zero_le _) (by omega)
      (hcand i t ht)
    rw [hn] at ht
    exact absurd ht (by simp)
  | some t =>
    obtain ⟨j, _, hj2, _, hj4, hj5⟩ := searchFrom_some re prog text text 0 t hs
    have hjl : j ≤ text.length := by omega
    obtain ⟨hf1, hf2⟩ := find_start w re prog p text t j hprog hs hj4 (by omega)
    have hm : matchesAt prog text j := ⟨hjl, by rw [hj4]; rfl⟩
    refine ⟨⟨fun _ => ⟨j, hm⟩, fun _ => hf1⟩, fun _ => ⟨rfl, ?_, ?_⟩⟩
    · rw [hf2]; exact hm
    · rw [hf2]
      rintro j1 hj1 ⟨_, hsome⟩
      obtain ⟨t1, ht1⟩ := Option.isSome_iff_exists.mp hsome
      have hn := hj5 j1 (Nat.zero_le _) hj1 (hcand j1 t1 ht1)
      rw [hn] at ht1
      exact absurd ht1 (by simp)

theorem find_first_occurrence_witness :
    ((find (compile 100 zeroState "b+a".toList) 100 "abba".toList).1 = true ↔
      ∃ i, matchesAt plusProgram "abba".toList i) ∧
    ((find (compile 100 zeroState "b+a".toList) 100 "abba".toList).1 = true →
      start_n 64 (find (compile 100 zeroState "b+a".toList) 100 "abba".toList).2 0 =
        Read.value (start 64 (find (compile 100 zeroState "b+a".toList) 100 "abba".toList).2) ∧
      matchesAt plusProgram "abba".toList
        (start 64 (find (compile 100 zeroState "b+a".toList) 100 "abba".toList).2) ∧
      ∀ j, j < start 64 (find (compile 100 zeroState "b+a".toList) 100 "abba".toList).2 →
        ¬ matchesAt plusProgram "abba".toList j) :=
  find_first_occurrence 64 100 zeroState "b+a".toList plusProgram 100 "abba".toList rfl
    (by decide)


theorem repeatLoop_bound (step : Trace → Trace) (hstep : Reaches step) (k : Trace) :
    ∀ (n m pos : Nat) (s : List Char) (t : Offsets), s.length ≤ n → s.length ≤ m →
    repeatLoop step k n pos s t = repeatLoop step k m pos s t := by
  have hzero : ∀ (m pos : Nat) (s : List Char) (t : Offsets), s.length = 0 →
      repeatLoop step k m pos s t = k pos s t := by
    intro m pos s t hs
    cases m with
    | zero => rfl
    | succ m =>
      simp only [repeatLoop, hs, Nat.not_lt_zero, if_false]
      split
      · rename_i r heq
        obtain ⟨_, _, _, _, hk⟩ := hstep _ pos s t r heq
        exact absurd hk (by simp)
      · rfl
  intro n
  induction n with
  | zero =>
    intro m pos s t hn _
    rw [hzero m pos s t (by omega)]
    rfl
  | succ n ih =>
    intro m pos s t hn hm
    cases m with
    | zero => exact hzero (n + 1) pos s t (by omega)
    | succ m =>
      have hk : (fun pos1 s1 t1 =>
          if s1.length < s.length then repeatLoop step k n pos1 s1 t1 else none) =
          (fun pos1 s1 t1 =>
          if s1.length < s.length then repeatLoop step k m pos1 s1 t1 else none) := by
        funext pos1 s1 t1
        split
        · exact ih m pos1 s1 t1 (by omega) (by omega)
        · rfl
      simp only [repeatLoop, hk]

theorem star_bound (body : List Instr) (k : Trace) (n pos : Nat) (s : List Char) (t : Offsets)
    (h : s.length ≤ n) :
    repeatLoop (regmatch body) k n pos s t = regmatchInstr (Instr.STAR body) k pos s t := by
  simp only [regmatchInstr]
  exact repeatLoop_bound (regmatch body) (reaches_prog body) k n s.length pos s t h (le_refl _)

theorem regclassItems_rest : ∀ (n : Nat) (s : List Char) (first : Bool) (items : List ClassItem)
    (r : List Char), s.length ≤ n → regclassItems first s = some (items, r) →
    r.length < s.length := by
  intro n
  induction n with
  | zero =>
    intro s first items r hn h
    cases s with
    | nil => simp [regclassItems] at h
    | cons c cs => simp at hn
  | succ n ih =>
    intro s first items r hn h
    match s, h with
    | [], h => simp [regclassItems] at h
    | [c], h =>
      simp only [regclassItems] at h
      split at h
      · simp only [Option.some.injEq, Prod.mk.injEq] at h
        rw [← h.2]; simp
      · exact absurd h (by simp)
    | c :: d :: rest, h =>
      unfold regclassItems at h
      simp only [List.length_cons] at hn ⊢
      split at h
      · simp only [Option.some.injEq, Prod.mk.injEq] at h
        rw [← h.2]; simp
      · split at h
        · split at h
          · exact absurd h (by simp)
          · rename_i e rest2
            split at h
            · simp only [Option.some.injEq, Prod.mk.injEq] at h
              rw [← h.2]; simp only [List.length_cons]; omega
            · split at h
              · rename_i items1 r1 heq
                simp only [Option.some.injEq, Prod.mk.injEq] at h
                have := ih rest2 false items1 r1 (by simp only [List.length_cons] at hn; omega) heq
                rw [← h.2]; simp only [List.length_cons]; omega
              · exact absurd h (by simp)
        · split at h
          · rename_i items1 r1 heq
            simp only [Option.some.injEq, Prod.mk.injEq] at h
            have := ih (d :: rest) false items1 r1 (by simp only [List.length_cons]; omega) heq
            rw [← h.2]; simp only [List.length_cons] at this; omega
          · exact absurd h (by simp)

theorem regclass_rest (s : List Char) (i : Instr) (r : List Char)
    (h : regclass s = some (i, r)) : r.length ≤ s.length := by
  unfold regclass at h
  split at h
  · rename_i s1
    split at h
    · rename_i items r1 heq
      simp only [Option.some.injEq, Prod.mk.injEq] at h
      have := regclassItems_rest s1.length s1 true items r1 (le_refl _) heq
      rw [← h.2]; simp only [List.length_cons]; omega
    · exact absurd h (by simp)
  · split at h
    · rename_i items r1 heq
      simp only [Option.some.injEq, Prod.mk.injEq] at h
      have := regclassItems_rest s.length s true items r1 (le_refl _) heq
      rw [← h.2]; omega
    · exact absurd h (by simp)

theorem regatom_rest (atStart : Bool) (c : Char) (cs : List Char) (atom : Program)
    (r : List Char) (h : regatom atStart c cs = Except.ok (atom, r)) :
    r.length ≤ cs.length := by
  unfold regatom at h
  split at h
  · simp only [Except.ok.injEq, Prod.mk.injEq] at h; rw [← h.2]
  · split at h
    · simp only [Except.ok.injEq, Prod.mk.injEq] at h; rw [← h.2]
    · split at h
      · simp only [Except.ok.injEq, Prod.mk.injEq] at h; rw [← h.2]
      · split at h
        · split at h
          · rename_i i r1 heq
            simp only [Except.ok.injEq, Prod.mk.injEq] at h
            rw [← h.2]; exact regclass_rest cs i r1 heq
          · exact absurd h (by simp)
        · split at h
          · split at h
            · simp only [Except.ok.injEq, Prod.mk.injEq] at h
              rw [← h.2]; simp
            · simp only [Except.ok.injEq, Prod.mk.injEq] at h
              rw [← h.2]
          · simp only [Except.ok.injEq, Prod.mk.injEq] at h; rw [← h.2]

theorem regpiece_rest (atom : Program) (r : List Char) :
    (regpiece atom r).2.length ≤ r.length := by
  unfold regpiece
  split <;> simp

theorem regseq_total : ∀ (fuel : Nat) (inGroup atStart : Bool) (npar : Nat) (s : List Char),
    s.length < fuel →
    ∃ res, regseq fuel inGroup atStart npar s = some res ∧
      ∀ parsed, res = Except.ok parsed → parsed.rest.length ≤ s.length := by
  intro fuel
  induction fuel with
  | zero => intro _ _ _ s h; simp at h
  | succ fuel ih =>
    intro inGroup atStart npar s hlen
    cases s with
    | nil =>
      simp only [regseq]
      refine ⟨_, rfl, ?_⟩
      intro parsed hp
      split at hp
      · exact absurd hp (by simp)
      · simp only [Except.ok.injEq] at hp; rw [← hp]
    | cons c cs =>
      simp only [List.length_cons] at hlen
      simp only [regseq]
      split
      · refine ⟨_, rfl, ?_⟩
        intro parsed hp
        split at hp
        · simp only [Except.ok.injEq] at hp; rw [← hp]; simp
        · exact absurd hp (by simp)
      · split
        · exact ⟨_, rfl, fun parsed hp => absurd hp (by simp)⟩
        · split
          · split
            · exact ⟨_, rfl, fun parsed hp => absurd hp (by simp)⟩
            · obtain ⟨res1, h1, h1r⟩ := ih true false (npar + 1) cs (by omega)
              rw [h1]
              cases res1 with
              | error e => exact ⟨_, rfl, fun parsed hp => absurd hp (by simp)⟩
              | ok inner =>
                have hin := h1r inner rfl
                have hp2 := regpiece_rest
                  (Instr.OPEN npar :: inner.prog ++ [Instr.CLOSE npar]) inner.rest
                obtain ⟨res2, h2, h2r⟩ := ih inGroup false inner.npar
                  (regpiece (Instr.OPEN npar :: inner.prog ++ [Instr.CLOSE npar]) inner.rest).2
                  (by omega)
                simp only [h2]
                cases res2 with
                | error e => exact ⟨_, rfl, fun parsed hp => absurd hp (by simp)⟩
                | ok tail =>
                  refine ⟨_, rfl, ?_⟩
                  intro parsed hp
                  simp only [Except.ok.injEq] at hp
                  have := h2r tail rfl
                  rw [← hp]; simp only [List.length_cons]; omega
          · cases hatom : regatom atStart c cs with
            | error e => exact ⟨_, rfl, fun parsed hp => absurd hp (by simp)⟩
            | ok ar =>
              obtain ⟨atom, r⟩ := ar
              have hr := regatom_rest atStart c cs atom r hatom
              have hp2 := regpiece_rest atom r
              obtain ⟨res2, h2, h2r⟩ := ih inGroup false npar (regpiece atom r).2 (by omega)
              simp only [h2]
              cases res2 with
              | error e => exact ⟨_, rfl, fun parsed hp => absurd hp (by simp)⟩
              | ok tail =>
                refine ⟨_, rfl, ?_⟩
                intro parsed hp
                simp only [Except.ok.injEq] at hp
                have := h2r tail rfl
                rw [← hp]; simp only [List.length_cons]; omega

theorem regseq_isSome (pattern : List Char) :
    (regseq (pattern.length + 1) false true 1 pattern).isSome = true := by
  obtain ⟨res, h, _⟩ := regseq_total (pattern.length + 1) false true 1 pattern (by omega)
  rw [h]; rfl

end cmRegularExpression
